import Mathlib

/-!
Verification of the slot-finding core of the AI-Scheduling-Assistant
repository (`src/scheduler_logic.py`), shallowly embedded in Lean.

Modelling conventions:
* A timezone-aware datetime is represented by its wall-clock instant in the
  single fixed reference timezone (`Asia/Kolkata` in the code), counted as an
  integer number of seconds since the local epoch.  The timezone has no DST
  transitions, so local differences coincide with instant differences and the
  code's mixed use of `datetime.now(tz)` and `datetime.now(pytz.utc)` denotes
  the same instant in this representation.
* Python dictionaries with keys `start` / `end` become the structure
  `Interval` below; `end` is not a valid Lean identifier, so the field is
  written `«end»`.
* `datetime.now(...)` is not a pure expression, so the embedded
  `find_best_slot` receives the instant read from the live clock as an extra
  explicit argument `now`; the Python function has no such parameter.
* Python's `sorted`/`list.sort` (stable, here keyed by `start`) is modelled by
  `List.insertionSort` with the relation `startLE`, which is likewise stable.
* Python's `int()` applied to a real number truncates toward zero, which on
  exact rationals of the form `a / b` with `b > 0` is `Int.tdiv a b`.
-/

namespace Scheduler

/-- A busy interval or candidate slot: Python dict `{'start': t, 'end': t}`
from `scheduler_logic.py`.  Timestamps are local-wall-clock seconds. -/
structure Interval where
  start : Int
  «end» : Int
deriving DecidableEq

/-- One raw calendar event as consumed by `find_best_slot` (lines 115-125).
The code does `parser.parse(event['StartTime'])` inside
`try ... except (KeyError, TypeError, ValueError)`.  We model the outcome of
that field access plus parse: `none` stands for a missing key, a non-string
value or an unparseable timestamp string (any of the three caught
exceptions), `some t` for a successfully parsed instant. -/
structure Event where
  startTime : Option Int
  endTime : Option Int
deriving DecidableEq

/-- Model of `now.replace(minute=0, second=0, microsecond=0)`: floor to the hour. -/
def floorToHour (t : Int) : Int := 3600 * Int.fdiv t 3600

/-- Model of `d.replace(hour=h, minute=0, second=0, microsecond=0)`: start of `d`'s
local day plus `h` hours. -/
def atHour (t : Int) (h : Int) : Int := 86400 * Int.fdiv t 86400 + 3600 * h

/-- Model of `dt.hour` for a local timestamp. -/
def dtHour (t : Int) : Int := Int.emod (Int.fdiv t 3600) 24

/-- Model of `dt.weekday()` (Monday = 0).  The local epoch day 1970-01-01 is a
Thursday, hence the offset 3. -/
def dtWeekday (t : Int) : Int := Int.emod (Int.fdiv t 86400 + 3) 7

/-- The `weekdays` dictionary of `get_next_weekday` (lines 13-16). -/
def weekdaysMap (s : String) : Option Int :=
  if s = "monday" then some 0
  else if s = "tuesday" then some 1
  else if s = "wednesday" then some 2
  else if s = "thursday" then some 3
  else if s = "friday" then some 4
  else if s = "saturday" then some 5
  else if s = "sunday" then some 6
  else none

/-- Model of `weekday_name.lower()`: ASCII lowercasing, which is all the weekday
table needs.  (`String.toLower` itself is defined by well-founded recursion
and does not reduce in the kernel, so we map over the character list.) -/
def pyLower (s : String) : String := ⟨s.data.map Char.toLower⟩

/-- Embedding of `get_next_weekday` (`scheduler_logic.py` lines 8-25).  The Python
falsy test `if not weekday_name` is the test for the empty string (a `None`
argument is modelled by `""` as well). -/
def get_next_weekday (start_date : Int) (weekday_name : String) : Int :=
  if weekday_name = "" then start_date
  else
    match weekdaysMap (pyLower weekday_name) with
    | none => start_date
    | some target_weekday =>
        let days_ahead := target_weekday - dtWeekday start_date
        let days_ahead := if days_ahead ≤ 0 then days_ahead + 7 else days_ahead
        start_date + days_ahead * 86400

/-- Sort key used by `busy_slots.sort(key=lambda x: x['start'])`. -/
def startLE (a b : Interval) : Prop := a.start ≤ b.start

instance : DecidableRel startLE := fun a b =>
  inferInstanceAs (Decidable (a.start ≤ b.start))

instance : IsTotal Interval startLE := ⟨fun a b => le_total a.start b.start⟩

instance : IsTrans Interval startLE := ⟨fun _ _ _ h h' => le_trans h h'⟩

/-- The merge scan of `merge_busy_slots` (lines 35-44): `cur` is the interval
currently being extended (`merged[-1]` in the Python, whose `end` field is
mutated in place). -/
def mergeGo (cur : Interval) : List Interval → List Interval
  | [] => [cur]
  | current :: rest =>
      if current.start ≤ cur.«end» then
        mergeGo ⟨cur.start, max cur.«end» current.«end»⟩ rest
      else
        cur :: mergeGo current rest

/-- Embedding of `merge_busy_slots` (`scheduler_logic.py` lines 27-45). -/
def merge_busy_slots (busy_slots : List Interval) : List Interval :=
  match List.insertionSort startLE busy_slots with
  | [] => []
  | first :: rest => mergeGo first rest

/-- Embedding of `score_slot_fast` (`scheduler_logic.py` lines 47-79).  `now` is the
instant the Python reads from `datetime.now(pytz.utc)` on line 54.
`time_diff_hours < 48` on exact arithmetic is `start - now < 48 * 3600`, and
`int(time_diff_hours * 20)` is the truncation `Int.tdiv (20 * (start - now))
3600`. -/
def score_slot_fast (slot : Interval) (now : Int) (is_urgent : Bool) : Int :=
  let start_time := slot.start
  if is_urgent then
    if start_time - now < 172800 then
      1000 - Int.tdiv (20 * (start_time - now)) 3600
    else
      50
  else
    let hour := dtHour start_time
    let score : Int := 100
    let score := if 9 ≤ hour ∧ hour ≤ 17 then score + 20 else score
    let score := if (10 ≤ hour ∧ hour ≤ 11) ∨ (14 ≤ hour ∧ hour ≤ 16) then score + 10 else score
    let score := if 12 ≤ hour ∧ hour ≤ 13 then score - 10 else score
    let score := if hour < 9 ∨ 17 < hour then score - 30 else score
    score

/-- The search-window computation of `find_best_slot` (lines 96-109),
returning `(search_start, search_end)`. -/
def searchWindow (now : Int) (is_urgent : Bool) (day_of_week : String) : Int × Int :=
  if is_urgent then
    let search_start := floorToHour now
    (search_start, search_start + 2 * 86400)
  else
    let target_day :=
      if day_of_week ≠ "" then get_next_weekday now day_of_week
      else now + 86400
    (atHour target_day 9, atHour target_day 18)

/-- The busy-slot collection loop of `find_best_slot` (lines 113-125): pool
every event of every participant, keeping those that parse and overlap the
search window. -/
def collectBusy (calendars : List (String × List Event))
    (search_start search_end : Int) : List Interval :=
  (calendars.map (fun participant =>
    participant.2.filterMap (fun event =>
      match event.startTime, event.endTime with
      | some s, some e =>
          if e > search_start ∧ s < search_end then some ⟨s, e⟩ else none
      | _, _ => none))).flatten

/-- Fuel bound for the 15-minute generation loops of `find_best_slot`: the
loop `while slot_start + duration <= bound` advances `slot_start` by 900
seconds per iteration, so it runs at most `(bound - duration - slot_start) /
900 + 1 ≤ (bound - duration - slot_start).toNat + 1` times. -/
def genFuel (slot_start bound dur : Int) : Nat :=
  (bound - dur - slot_start).toNat + 1

/-- Slot emissions of one `while slot_start + duration <= bound` loop
(lines 139-142 and 148-151), with explicit fuel. -/
def genSlotsF : Nat → Int → Int → Int → List Interval
  | 0, _, _, _ => []
  | fuel + 1, slot_start, bound, dur =>
      if slot_start + dur ≤ bound then
        ⟨slot_start, slot_start + dur⟩ :: genSlotsF fuel (slot_start + 900) bound dur
      else []

/-- Final cursor value of the same loop. -/
def genEndF : Nat → Int → Int → Int → Int
  | 0, slot_start, _, _ => slot_start
  | fuel + 1, slot_start, bound, dur =>
      if slot_start + dur ≤ bound then genEndF fuel (slot_start + 900) bound dur
      else slot_start

/-- The slot-enumeration loop of `find_best_slot` (lines 130-151): walk the
merged busy timeline, emitting 15-minute-stepped candidates in each gap, then
after the last busy interval up to the window end. -/
def slotLoop (dur search_end : Int) : Int → List Interval → List Interval
  | slot_start, [] =>
      genSlotsF (genFuel slot_start search_end dur) slot_start search_end dur
  | slot_start, busy :: rest =>
      let gap_end := busy.start
      genSlotsF (genFuel slot_start gap_end dur) slot_start gap_end dur ++
      slotLoop dur search_end
        (max (genEndF (genFuel slot_start gap_end dur) slot_start gap_end dur) busy.«end»)
        rest

/-- The list `available_slots` as computed by `find_best_slot` for a window, a merged
busy timeline and a duration in seconds. -/
def availableSlots (search_start search_end : Int) (merged : List Interval)
    (dur : Int) : List Interval :=
  slotLoop dur search_end search_start merged

/-- The selection loop of `find_best_slot` (lines 160-167): `best_slot =
None`, `best_score = -1`, replace only on strictly greater score. -/
def selectGo (score : Interval → Int) :
    List Interval → Option Interval → Int → Option Interval
  | [], best_slot, _ => best_slot
  | slot :: rest, best_slot, best_score =>
      if best_score < score slot then selectGo score rest (some slot) (score slot)
      else selectGo score rest best_slot best_score

/-- The scorer/selector of `find_best_slot` applied to the candidate list. -/
def selectBest (score : Interval → Int) (slots : List Interval) : Option Interval :=
  selectGo score slots none (-1)

/-- Embedding of `find_best_slot` (`scheduler_logic.py` lines 81-172).  `calendars` is the
participant-to-events mapping (a Python dict in insertion order),
`time_constraints` is accepted and never used, exactly as in the source.
`now` is the instant the function reads from the live clock
(`datetime.now(tz)` on line 94 and `datetime.now(pytz.utc)` on line 54); the
Python signature has no such parameter. -/
def find_best_slot (calendars : List (String × List Event))
    (duration_minutes : Int) (time_constraints : String) (day_of_week : String)
    (is_urgent : Bool) (now : Int) : Option Interval :=
  let w := searchWindow now is_urgent day_of_week
  let all_busy_slots := collectBusy calendars w.1 w.2
  let merged_busy_slots := merge_busy_slots all_busy_slots
  let available_slots := availableSlots w.1 w.2 merged_busy_slots (duration_minutes * 60)
  if available_slots = [] then none
  else selectBest (fun s => score_slot_fast s now is_urgent) available_slots

/-- Modelled from the spec (§4.4, urgent policy), for comparison with
`score_slot_fast`: "let `h` = hours between candidate start and now
(… treat negative as 0). If `h < 48`: score = `1000 - floor(h * 20)`.
Else: score = `50`."  On integer-second timestamps `floor(h * 20)` is
`Int.fdiv (20 * d) 3600` for the clamped difference `d`. -/
def spec_urgent_score (start now : Int) : Int :=
  let d := max (start - now) 0
  if d < 172800 then 1000 - Int.fdiv (20 * d) 3600 else 50

/-! ## Claims -/

/-- Claim C9: under the routine policy the score of a candidate slot is 100
plus independent additive adjustments determined by the slot's start
hour-of-day: +20 for hours 9-17, a further +10 for hours 10-11 or 14-16,
-10 for hours 12-13, and -30 for hours before 9 or after 17. -/
theorem C9_routine_score_additive (slot : Interval) (now : Int) :
    score_slot_fast slot now false =
      100 + (if 9 ≤ dtHour slot.start ∧ dtHour slot.start ≤ 17 then 20 else 0)
          + (if (10 ≤ dtHour slot.start ∧ dtHour slot.start ≤ 11) ∨
                (14 ≤ dtHour slot.start ∧ dtHour slot.start ≤ 16) then 10 else 0)
          - (if 12 ≤ dtHour slot.start ∧ dtHour slot.start ≤ 13 then 10 else 0)
          - (if dtHour slot.start < 9 ∨ 17 < dtHour slot.start then 30 else 0) := by
  simp [score_slot_fast]
  split_ifs <;> omega

/-- Claim C5, counterexample: for a candidate starting one hour before
"now" the code returns `1000 - int(-20) = 1020`, while the claimed formula
(negative hours clamped to 0, then `1000 - floor(h * 20)`) yields 1000. -/
theorem C5_counterexample :
    score_slot_fast ⟨0, 1800⟩ 3600 true ≠ spec_urgent_score 0 3600 := by decide

/-- Claim C5 as amended: the code never clamps a negative hour difference.
With `d = start - now` (seconds): for `d ≥ 0` the urgent score agrees with
the spec formula `1000 - floor(h * 20)` for `h < 48`, else `50`; for `d < 0`
the score is `1000 + trunc(20 * (now - start) / 3600)`, i.e. at least 1000,
because `int()` truncates toward zero instead of clamping. -/
theorem C5_urgent_score (slot : Interval) (now : Int) :
    (0 ≤ slot.start - now →
      score_slot_fast slot now true = spec_urgent_score slot.start now) ∧
    (slot.start - now < 0 →
      score_slot_fast slot now true =
        1000 + Int.tdiv (20 * (now - slot.start)) 3600) := by
  have hb : score_slot_fast slot now true =
      (if slot.start - now < 172800 then
        1000 - Int.tdiv (20 * (slot.start - now)) 3600
      else 50) := rfl
  have hs : spec_urgent_score slot.start now =
      (if max (slot.start - now) 0 < 172800 then
        1000 - Int.fdiv (20 * max (slot.start - now) 0) 3600
      else 50) := rfl
  constructor
  · intro h
    rw [hb, hs, max_eq_left h]
    by_cases hc : slot.start - now < 172800
    · rw [if_pos hc, if_pos hc]
      have h20 : (0:Int) ≤ 20 * (slot.start - now) := by positivity
      rw [Int.tdiv_eq_ediv h20 (by norm_num), Int.fdiv_eq_ediv _ (by norm_num)]
    · rw [if_neg hc, if_neg hc]
  · intro h
    have hlt : slot.start - now < 172800 := by omega
    rw [hb, if_pos hlt]
    have hneg : 20 * (slot.start - now) = -(20 * (now - slot.start)) := by ring
    rw [hneg, Int.neg_tdiv]
    ring

/-- Witness for C5_urgent_score at concrete inputs: a slot two hours after
"now" scores exactly the spec formula value, and a slot one hour before
"now" scores `1000 + 20`. -/
theorem C5_urgent_score_witness :
    score_slot_fast ⟨7200, 9000⟩ 0 true = spec_urgent_score 7200 0 ∧
    score_slot_fast ⟨0, 1800⟩ 3600 true = 1000 + Int.tdiv (20 * (3600 - 0)) 3600 :=
  ⟨(C5_urgent_score ⟨7200, 9000⟩ 0).1 (by decide),
   (C5_urgent_score ⟨0, 1800⟩ 3600).2 (by decide)⟩

/-- Claim C7, counterexample: with "now" at the local epoch and the
unrecognized weekday name "noday", the non-urgent search window is the
current day's 09:00-18:00 `(32400, 64800)`, not the no-weekday window
(tomorrow's 09:00-18:00, `(118800, 151200)`): `get_next_weekday` returns
`start_date` itself for an unrecognized name, and `find_best_slot` adds one
day only in the no-weekday branch. -/
theorem C7_counterexample :
    searchWindow 0 false ("noday") ≠ searchWindow 0 false ("") := by decide

/-- Claim C7 as amended: when the request is not urgent and the supplied
weekday name is non-empty but not one of the seven recognized weekday
names, the search window is TODAY's (now's date's) `[09:00, 18:00]` local
time, not tomorrow's. -/
theorem C7_unrecognized_weekday (now : Int) (name : String)
    (hne : name ≠ "") (hbad : weekdaysMap (pyLower name) = none) :
    searchWindow now false name = (atHour now 9, atHour now 18) := by
  have hb : searchWindow now false name =
      (atHour (if name ≠ "" then get_next_weekday now name else now + 86400) 9,
       atHour (if name ≠ "" then get_next_weekday now name else now + 86400) 18) := rfl
  rw [hb, if_pos hne]
  unfold get_next_weekday
  rw [if_neg hne, hbad]

/-- Witness for C7_unrecognized_weekday: the concrete unrecognized name
"noday" at the epoch instant. -/
theorem C7_unrecognized_weekday_witness :
    searchWindow 0 false ("noday") = (atHour 0 9, atHour 0 18) :=
  C7_unrecognized_weekday 0 "noday" (by decide) (by decide)

/-- Claim C1: the engine is NOT a pure function of its explicit inputs: it
reads the live clock inside `find_best_slot` (line 94) and inside
`score_slot_fast` (line 54) instead of accepting "now" as a parameter.
With every explicit input fixed (no participants, 2850 minutes, urgent),
invoking it when the clock reads the epoch and when it reads one hour later
returns different winning slots. -/
theorem C1_clock_dependence :
    find_best_slot [] 2850 "" "" true 0 ≠ find_best_slot [] 2850 "" "" true 3600 := by
  decide

/-- Claim C8: the engine does not reject a non-positive duration.  With
`duration_minutes = 0` (no participants, routine, clock at the epoch) it
runs the generation loop and returns the zero-length slot
`[10:00, 10:00]` of the next day instead of an error/none result. -/
theorem C8_no_duration_validation :
    find_best_slot [] 0 "" "" false 0 = some ⟨122400, 122400⟩ := by decide

/-- Busy-slot collection ignores an event whose `StartTime` or `EndTime`
is missing or unparseable, wherever it occurs in the mapping. -/
theorem collectBusy_skips_bad (cals1 cals2 : List (String × List Event))
    (email : String) (pre post : List Event) (e : Event)
    (hbad : e.startTime = none ∨ e.endTime = none) (ss se : Int) :
    collectBusy (cals1 ++ (email, pre ++ e :: post) :: cals2) ss se =
    collectBusy (cals1 ++ (email, pre ++ post) :: cals2) ss se := by
  obtain ⟨es, ee⟩ := e
  simp only [collectBusy, List.map_append, List.map_cons, List.filterMap_append,
    List.filterMap_cons]
  rcases hbad with h | h
  · cases h; rfl
  · cases h; cases es <;> rfl

/-- Claim C10: an event whose `StartTime` or `EndTime` is missing or whose
timestamp fails to parse is silently skipped by `find_best_slot`: the result
is exactly the result on the input with that event absent. -/
theorem C10_bad_events_skipped (cals1 cals2 : List (String × List Event))
    (email : String) (pre post : List Event) (e : Event)
    (hbad : e.startTime = none ∨ e.endTime = none)
    (dur : Int) (tc dow : String) (urgent : Bool) (now : Int) :
    find_best_slot (cals1 ++ (email, pre ++ e :: post) :: cals2) dur tc dow urgent now =
    find_best_slot (cals1 ++ (email, pre ++ post) :: cals2) dur tc dow urgent now := by
  simp only [find_best_slot,
    collectBusy_skips_bad cals1 cals2 email pre post e hbad]

/-- Witness for C10_bad_events_skipped: a single participant whose only
event lacks a parseable `StartTime` yields the same result as that
participant with no events at all. -/
theorem C10_bad_events_skipped_witness :
    find_best_slot [("a", [⟨none, some 126000⟩])] 30 "" "" false 0 =
    find_best_slot [("a", [])] 30 "" "" false 0 :=
  C10_bad_events_skipped [] [] "a" [] [] ⟨none, some 126000⟩ (Or.inl rfl) 30 "" "" false 0

/-! ## Slot enumeration (claim C2) -/

/-- Every slot emitted by one generation loop starts at or after the cursor,
has length exactly `dur`, and ends at or before the loop bound. -/
theorem genSlotsF_mem : ∀ (f : Nat) (c bound dur : Int) (s : Interval),
    s ∈ genSlotsF f c bound dur →
    c ≤ s.start ∧ s.«end» = s.start + dur ∧ s.«end» ≤ bound := by
  intro f
  induction f with
  | zero => intro c bound dur s h; simp [genSlotsF] at h
  | succ n ih =>
    intro c bound dur s h
    simp only [genSlotsF] at h
    by_cases hc : c + dur ≤ bound
    · rw [if_pos hc] at h
      rcases List.mem_cons.mp h with rfl | h2
      · exact ⟨le_refl _, rfl, hc⟩
      · obtain ⟨h3, h4, h5⟩ := ih _ _ _ _ h2
        exact ⟨by omega, h4, h5⟩
    · rw [if_neg hc] at h
      simp at h

/-- The generation loop only moves the cursor forward. -/
theorem genEndF_ge : ∀ (f : Nat) (c bound dur : Int), c ≤ genEndF f c bound dur := by
  intro f
  induction f with
  | zero => intro c bound dur; exact le_refl _
  | succ n ih =>
    intro c bound dur
    simp only [genEndF]
    by_cases hc : c + dur ≤ bound
    · rw [if_pos hc]
      exact le_trans (by omega) (ih (c + 900) bound dur)
    · rw [if_neg hc]

/-- Soundness of the enumeration walk: on a merged timeline that is sorted
by `start` and whose interval starts lie before the window end, every
emitted slot starts at or after the cursor, has length `dur`, ends inside
the window, and is disjoint from every timeline interval. -/
theorem slotLoop_spec : ∀ (merged : List Interval) (dur se c : Int),
    List.Pairwise startLE merged →
    (∀ b ∈ merged, b.start < se) →
    ∀ s ∈ slotLoop dur se c merged,
      c ≤ s.start ∧ s.«end» = s.start + dur ∧ s.«end» ≤ se ∧
      ∀ b ∈ merged, s.«end» ≤ b.start ∨ b.«end» ≤ s.start := by
  intro merged
  induction merged with
  | nil =>
    intro dur se c _ _ s hs
    obtain ⟨h1, h2, h3⟩ := genSlotsF_mem _ _ _ _ _ hs
    exact ⟨h1, h2, h3, by simp⟩
  | cons b rest ih =>
    intro dur se c hp hlt s hs
    simp only [slotLoop] at hs
    rcases List.mem_append.mp hs with h | h
    · obtain ⟨h1, h2, h3⟩ := genSlotsF_mem _ _ _ _ _ h
      have hbse : b.start < se := hlt b (by simp)
      refine ⟨h1, h2, by omega, ?_⟩
      intro b2 hb2
      rcases List.mem_cons.mp hb2 with rfl | hb3
      · exact Or.inl h3
      · have hbb : b.start ≤ b2.start := (List.pairwise_cons.mp hp).1 b2 hb3
        exact Or.inl (by omega)
    · have hge : c ≤ max (genEndF (genFuel c b.start dur) c b.start dur) b.«end» :=
        le_trans (genEndF_ge _ _ _ _) (le_max_left _ _)
      obtain ⟨h1, h2, h3, h4⟩ := ih dur se _ (List.pairwise_cons.mp hp).2
        (fun x hx => hlt x (List.mem_cons_of_mem _ hx)) s h
      refine ⟨le_trans hge h1, h2, h3, ?_⟩
      intro b2 hb2
      rcases List.mem_cons.mp hb2 with rfl | hb3
      · refine Or.inr (le_trans (le_max_right _ _) h1)
      · exact h4 b2 hb3

/-! ## Structure of the merged timeline needed for C2 -/

/-- Every interval in the output of the merge scan starts where `cur` or
one of the input intervals starts. -/
theorem mergeGo_start_mem : ∀ (l : List Interval) (cur y : Interval),
    y ∈ mergeGo cur l → y.start = cur.start ∨ ∃ x ∈ l, y.start = x.start := by
  intro l
  induction l with
  | nil =>
    intro cur y h
    simp only [mergeGo, List.mem_singleton] at h
    exact Or.inl (by rw [h])
  | cons x xs ih =>
    intro cur y h
    simp only [mergeGo] at h
    by_cases hc : x.start ≤ cur.«end»
    · rw [if_pos hc] at h
      rcases ih _ _ h with h2 | ⟨z, hz, h2⟩
      · exact Or.inl h2
      · exact Or.inr ⟨z, List.mem_cons_of_mem _ hz, h2⟩
    · rw [if_neg hc] at h
      rcases List.mem_cons.mp h with rfl | h2
      · exact Or.inl rfl
      · rcases ih _ _ h2 with h3 | ⟨z, hz, h3⟩
        · exact Or.inr ⟨x, by simp, h3⟩
        · exact Or.inr ⟨z, by simp [hz], h3⟩

/-- The merge scan returns a nonempty list whose head starts at
`cur.start`. -/
theorem mergeGo_head : ∀ (l : List Interval) (cur : Interval),
    ∃ e tl, mergeGo cur l = ⟨cur.start, e⟩ :: tl := by
  intro l
  induction l with
  | nil => intro cur; exact ⟨cur.«end», [], rfl⟩
  | cons x xs ih =>
    intro cur
    by_cases hc : x.start ≤ cur.«end»
    · obtain ⟨e, tl, h⟩ := ih ⟨cur.start, max cur.«end» x.«end»⟩
      refine ⟨e, tl, ?_⟩
      simp only [mergeGo]
      rw [if_pos hc]
      exact h
    · refine ⟨cur.«end», mergeGo x xs, ?_⟩
      simp only [mergeGo]
      rw [if_neg hc]

/-- The merge scan preserves sortedness by `start`. -/
theorem mergeGo_sorted : ∀ (l : List Interval) (cur : Interval),
    List.Pairwise startLE l → (∀ x ∈ l, cur.start ≤ x.start) →
    List.Pairwise startLE (mergeGo cur l) := by
  intro l
  induction l with
  | nil => intro cur _ _; simp [mergeGo]
  | cons x xs ih =>
    intro cur hp hcur
    simp only [mergeGo]
    by_cases hc : x.start ≤ cur.«end»
    · rw [if_pos hc]
      apply ih
      · exact (List.pairwise_cons.mp hp).2
      · intro z hz
        exact le_trans (hcur x (by simp)) ((List.pairwise_cons.mp hp).1 z hz)
    · rw [if_neg hc]
      rw [List.pairwise_cons]
      constructor
      · intro y hy
        rcases mergeGo_start_mem _ _ _ hy with h | ⟨z, hz, h⟩
        · show cur.start ≤ y.start
          rw [h]
          exact hcur x (by simp)
        · show cur.start ≤ y.start
          rw [h]
          exact hcur z (List.mem_cons_of_mem _ hz)
      · apply ih
        · exact (List.pairwise_cons.mp hp).2
        · intro z hz
          exact (List.pairwise_cons.mp hp).1 z hz

/-- The function `merge_busy_slots` always returns a timeline sorted by `start`. -/
theorem merge_busy_slots_sorted (l : List Interval) :
    List.Pairwise startLE (merge_busy_slots l) := by
  unfold merge_busy_slots
  split
  · simp
  · next x xs heq =>
    have hs : List.Pairwise startLE (x :: xs) := by
      have h2 := List.sorted_insertionSort startLE l
      rw [heq] at h2
      exact h2
    apply mergeGo_sorted
    · exact (List.pairwise_cons.mp hs).2
    · intro z hz
      exact (List.pairwise_cons.mp hs).1 z hz

/-- Every merged interval starts where some input interval starts. -/
theorem merge_busy_slots_start_mem (l : List Interval) (y : Interval)
    (hy : y ∈ merge_busy_slots l) : ∃ x ∈ l, y.start = x.start := by
  unfold merge_busy_slots at hy
  split at hy
  · simp at hy
  · next x xs heq =>
    have hmem : ∀ z, z ∈ x :: xs → z ∈ l := by
      intro z hz
      have hperm := List.perm_insertionSort startLE l
      rw [heq] at hperm
      exact hperm.subset hz
    rcases mergeGo_start_mem _ _ _ hy with h | ⟨z, hz, h⟩
    · exact ⟨x, hmem x (by simp), h⟩
    · exact ⟨z, hmem z (by simp [hz]), h⟩

/-- Every busy interval collected by `find_best_slot` starts before the
window end (the filter on line 122 guarantees `start < search_end`). -/
theorem collectBusy_start_lt (cals : List (String × List Event)) (ss se : Int) :
    ∀ i ∈ collectBusy cals ss se, i.start < se := by
  intro i hi
  unfold collectBusy at hi
  simp only [List.mem_flatten, List.mem_map] at hi
  obtain ⟨l2, ⟨p, hp, rfl⟩, hil⟩ := hi
  rw [List.mem_filterMap] at hil
  obtain ⟨ev, hev, hmap⟩ := hil
  obtain ⟨es, ee⟩ := ev
  cases es with
  | none => exact absurd hmap (by simp)
  | some s =>
    cases ee with
    | none => exact absurd hmap (by simp)
    | some e =>
      simp only at hmap
      split at hmap
      · next hcond =>
        cases hmap
        exact hcond.2
      · exact absurd hmap (by simp)

/-- Claim C2: every candidate slot emitted by the enumeration loop of
`find_best_slot` (for any calendars, any window parameters, any positive
duration) has length exactly the requested duration, lies fully within the
search window, and is disjoint from every interval of the merged busy
timeline. -/
theorem C2_candidate_slots (cals : List (String × List Event)) (dur : Int)
    (dow : String) (urgent : Bool) (now : Int) (hdur : 0 < dur) :
    ∀ s ∈ availableSlots (searchWindow now urgent dow).1 (searchWindow now urgent dow).2
        (merge_busy_slots (collectBusy cals (searchWindow now urgent dow).1
          (searchWindow now urgent dow).2)) (dur * 60),
      s.«end» - s.start = dur * 60 ∧
      (searchWindow now urgent dow).1 ≤ s.start ∧
      s.«end» ≤ (searchWindow now urgent dow).2 ∧
      ∀ b ∈ merge_busy_slots (collectBusy cals (searchWindow now urgent dow).1
          (searchWindow now urgent dow).2),
        s.«end» ≤ b.start ∨ b.«end» ≤ s.start := by
  intro s hs
  have hsorted : List.Pairwise startLE (merge_busy_slots
      (collectBusy cals (searchWindow now urgent dow).1 (searchWindow now urgent dow).2)) :=
    merge_busy_slots_sorted _
  have hlt : ∀ b ∈ merge_busy_slots (collectBusy cals (searchWindow now urgent dow).1
      (searchWindow now urgent dow).2), b.start < (searchWindow now urgent dow).2 := by
    intro b hb
    obtain ⟨x, hx, hbs⟩ := merge_busy_slots_start_mem _ _ hb
    rw [hbs]
    exact collectBusy_start_lt _ _ _ x hx
  obtain ⟨h1, h2, h3, h4⟩ := slotLoop_spec _ _ _ _ hsorted hlt s hs
  exact ⟨by omega, h1, h3, h4⟩

/-- Witness for C2_candidate_slots: one participant busy 11:00-12:00 on the
default (tomorrow) window, duration 60 minutes; the concrete emitted slot
09:00-10:00 has the claimed length, containment and disjointness. -/
theorem C2_candidate_slots_witness :
    (⟨118800, 122400⟩ : Interval).«end» - (⟨118800, 122400⟩ : Interval).start = 60 * 60 ∧
    (searchWindow 0 false ("")).1 ≤ (⟨118800, 122400⟩ : Interval).start ∧
    (⟨118800, 122400⟩ : Interval).«end» ≤ (searchWindow 0 false ("")).2 ∧
    ((⟨118800, 122400⟩ : Interval).«end» ≤ (⟨126000, 129600⟩ : Interval).start ∨
      (⟨126000, 129600⟩ : Interval).«end» ≤ (⟨118800, 122400⟩ : Interval).start) := by
  obtain ⟨h1, h2, h3, h4⟩ := C2_candidate_slots [("a", [⟨some 126000, some 129600⟩])]
    60 "" false 0 (by decide) ⟨118800, 122400⟩ (by decide)
  exact ⟨h1, h2, h3, h4 ⟨126000, 129600⟩ (by decide)⟩

/-! ## Selector (claim C6) -/

/-- Lower bound on every score the code can produce: at least 41 (so the
sentinel `best_score = -1` is always beaten by the first candidate). -/
theorem score_slot_fast_lb (slot : Interval) (now : Int) (u : Bool) :
    41 ≤ score_slot_fast slot now u := by
  cases u with
  | false =>
    simp [score_slot_fast]
    split_ifs <;> omega
  | true =>
    have hb : score_slot_fast slot now true =
        (if slot.start - now < 172800 then
          1000 - Int.tdiv (20 * (slot.start - now)) 3600
        else 50) := rfl
    rw [hb]
    by_cases hc : slot.start - now < 172800
    · rw [if_pos hc]
      have hdiv : Int.tdiv (20 * (slot.start - now)) 3600 ≤ 959 := by
        by_cases hd : 0 ≤ slot.start - now
        · have h20 : (0:Int) ≤ 20 * (slot.start - now) := mul_nonneg (by norm_num) hd
          rw [Int.tdiv_eq_ediv h20 (by norm_num)]
          have hle : 20 * (slot.start - now) ≤ 3455980 := by omega
          calc 20 * (slot.start - now) / 3600
              ≤ 3455980 / 3600 := Int.ediv_le_ediv (by norm_num) hle
            _ = 959 := by norm_num
        · push_neg at hd
          have hneg : 20 * (slot.start - now) = -(20 * (now - slot.start)) := by ring
          rw [hneg, Int.neg_tdiv]
          have hnn : 0 ≤ Int.tdiv (20 * (now - slot.start)) 3600 :=
            Int.tdiv_nonneg (mul_nonneg (by norm_num) (by omega)) (by norm_num)
          omega
      omega
    · rw [if_neg hc]
      omega

/-- If the running best is `some b` with stored score `bs = score b`, then
the final result scores at least `bs`. -/
theorem selectGo_ge (score : Interval → Int) :
    ∀ (l : List Interval) (best : Option Interval) (bs : Int) (r : Interval),
      (∀ x, best = some x → score x = bs) →
      selectGo score l best bs = some r → bs ≤ score r := by
  intro l
  induction l with
  | nil =>
    intro best bs r hinv h
    cases best with
    | none => exact absurd h (by simp [selectGo])
    | some b =>
      simp only [selectGo, Option.some.injEq] at h
      rw [← h]
      exact le_of_eq (hinv b rfl).symm
  | cons s rest ih =>
    intro best bs r hinv h
    simp only [selectGo] at h
    by_cases hc : bs < score s
    · rw [if_pos hc] at h
      have h2 := ih (some s) (score s) r (by intro x hx; cases hx; rfl) h
      omega
    · rw [if_neg hc] at h
      exact ih best bs r hinv h

/-- The result of the scan either is the incoming best or strictly improves
on the incoming best score (replacement happens only on a strict
increase). -/
theorem selectGo_strict (score : Interval → Int) :
    ∀ (l : List Interval) (b : Interval) (bs : Int) (r : Interval),
      score b = bs →
      selectGo score l (some b) bs = some r → r = b ∨ bs < score r := by
  intro l
  induction l with
  | nil =>
    intro b bs r hb h
    simp only [selectGo, Option.some.injEq] at h
    exact Or.inl h.symm
  | cons s rest ih =>
    intro b bs r hb h
    simp only [selectGo] at h
    by_cases hc : bs < score s
    · rw [if_pos hc] at h
      have h2 := selectGo_ge score rest (some s) (score s) r
        (by intro x hx; cases hx; rfl) h
      exact Or.inr (by omega)
    · rw [if_neg hc] at h
      exact ih b bs r hb h

/-- Starting from the `None` sentinel, a returned slot strictly beats the
incoming best score. -/
theorem selectGo_none_strict (score : Interval → Int) :
    ∀ (l : List Interval) (bs : Int) (r : Interval),
      selectGo score l none bs = some r → bs < score r := by
  intro l
  induction l with
  | nil => intro bs r h; exact absurd h (by simp [selectGo])
  | cons s rest ih =>
    intro bs r h
    simp only [selectGo] at h
    by_cases hc : bs < score s
    · rw [if_pos hc] at h
      have h2 := selectGo_ge score rest (some s) (score s) r
        (by intro x hx; cases hx; rfl) h
      omega
    · rw [if_neg hc] at h
      exact ih bs r h

/-- The scan result is a scanned candidate or the incoming best. -/
theorem selectGo_mem (score : Interval → Int) :
    ∀ (l : List Interval) (best : Option Interval) (bs : Int) (r : Interval),
      selectGo score l best bs = some r → r ∈ l ∨ best = some r := by
  intro l
  induction l with
  | nil => intro best bs r h; exact Or.inr h
  | cons s rest ih =>
    intro best bs r h
    simp only [selectGo] at h
    by_cases hc : bs < score s
    · rw [if_pos hc] at h
      rcases ih (some s) (score s) r h with h2 | h2
      · exact Or.inl (List.mem_cons_of_mem _ h2)
      · cases h2
        exact Or.inl (by simp)
    · rw [if_neg hc] at h
      rcases ih best bs r h with h2 | h2
      · exact Or.inl (List.mem_cons_of_mem _ h2)
      · exact Or.inr h2

/-- The scan result scores at least every scanned candidate. -/
theorem selectGo_max (score : Interval → Int) :
    ∀ (l : List Interval) (best : Option Interval) (bs : Int) (r : Interval),
      (∀ x, best = some x → score x = bs) →
      selectGo score l best bs = some r → ∀ t ∈ l, score t ≤ score r := by
  intro l
  induction l with
  | nil => intro best bs r _ _ t ht; simp at ht
  | cons s rest ih =>
    intro best bs r hinv h t ht
    simp only [selectGo] at h
    by_cases hc : bs < score s
    · rw [if_pos hc] at h
      rcases List.mem_cons.mp ht with rfl | ht2
      · exact selectGo_ge score rest (some t) (score t) r
          (by intro x hx; cases hx; rfl) h
      · exact ih (some s) (score s) r (by intro x hx; cases hx; rfl) h t ht2
    · rw [if_neg hc] at h
      rcases List.mem_cons.mp ht with rfl | ht2
      · have hge := selectGo_ge score rest best bs r hinv h
        omega
      · exact ih best bs r hinv h t ht2

/-- On a candidate list sorted by start, the scan keeps the earliest
candidate among those attaining the final (maximal) score. -/
theorem selectGo_earliest (score : Interval → Int) :
    ∀ (l : List Interval) (best : Option Interval) (bs : Int) (r : Interval),
      (∀ x, best = some x → score x = bs) →
      List.Pairwise startLE l →
      (∀ x, best = some x → ∀ t ∈ l, x.start ≤ t.start) →
      selectGo score l best bs = some r →
      ∀ t ∈ l, score t = score r → r.start ≤ t.start := by
  intro l
  induction l with
  | nil => intro best bs r _ _ _ _ t ht; simp at ht
  | cons s rest ih =>
    intro best bs r hinv hp hbst h t ht hscore
    simp only [selectGo] at h
    by_cases hc : bs < score s
    · rw [if_pos hc] at h
      rcases List.mem_cons.mp ht with rfl | ht2
      · rcases selectGo_strict score rest t (score t) r rfl h with rfl | hlt
        · exact le_refl _
        · omega
      · refine ih (some s) (score s) r (by intro x hx; cases hx; rfl)
          (List.pairwise_cons.mp hp).2 ?_ h t ht2 hscore
        intro x hx u hu
        cases hx
        exact (List.pairwise_cons.mp hp).1 u hu
    · rw [if_neg hc] at h
      push_neg at hc
      rcases List.mem_cons.mp ht with rfl | ht2
      · cases best with
        | none =>
          have h2 := selectGo_none_strict score rest bs r h
          omega
        | some b =>
          have hb : score b = bs := hinv b rfl
          rcases selectGo_strict score rest b bs r hb h with rfl | hlt
          · exact hbst r rfl t (by simp)
          · omega
      · cases best with
        | none =>
          refine ih none bs r (fun x hx => Option.noConfusion hx)
            (List.pairwise_cons.mp hp).2 (fun x hx => Option.noConfusion hx)
            h t ht2 hscore
        | some b =>
          refine ih (some b) bs r hinv (List.pairwise_cons.mp hp).2 ?_ h t ht2 hscore
          intro x hx u hu
          cases hx
          exact hbst b rfl u (List.mem_cons_of_mem _ hu)

/-- Once the running best is `some`, the scan stays `some`. -/
theorem selectGo_isSome (score : Interval → Int) :
    ∀ (l : List Interval) (b : Interval) (bs : Int),
      (selectGo score l (some b) bs).isSome = true := by
  intro l
  induction l with
  | nil => intro b bs; rfl
  | cons s rest ih =>
    intro b bs
    simp only [selectGo]
    by_cases hc : bs < score s
    · rw [if_pos hc]; exact ih s (score s)
    · rw [if_neg hc]; exact ih b bs

/-- Claim C6: for every non-empty candidate list in ascending start order,
the selection loop of `find_best_slot` returns a candidate attaining the
maximum `score_slot_fast` score, and among the candidates attaining that
maximum it returns the earliest-starting one (replacement only on strictly
greater score). -/
theorem C6_selector (slots : List Interval) (now : Int) (urgent : Bool)
    (hne : slots ≠ []) (hsorted : List.Pairwise startLE slots) :
    (selectBest (fun s => score_slot_fast s now urgent) slots).isSome = true ∧
    ∀ r, selectBest (fun s => score_slot_fast s now urgent) slots = some r →
      r ∈ slots ∧
      ∀ t ∈ slots, score_slot_fast t now urgent ≤ score_slot_fast r now urgent ∧
        (score_slot_fast t now urgent = score_slot_fast r now urgent →
          r.start ≤ t.start) := by
  constructor
  · rcases slots with _ | ⟨s0, rest⟩
    · exact absurd rfl hne
    · have h0 : (-1:Int) < score_slot_fast s0 now urgent := by
        have hlb := score_slot_fast_lb s0 now urgent
        omega
      have hstep : selectBest (fun s => score_slot_fast s now urgent) (s0 :: rest) =
          if (-1:Int) < score_slot_fast s0 now urgent then
            selectGo (fun s => score_slot_fast s now urgent) rest (some s0)
              (score_slot_fast s0 now urgent)
          else
            selectGo (fun s => score_slot_fast s now urgent) rest none (-1) := rfl
      rw [hstep, if_pos h0]
      exact selectGo_isSome _ rest s0 _
  · intro r hr
    unfold selectBest at hr
    refine ⟨?_, ?_⟩
    · rcases selectGo_mem _ _ _ _ _ hr with h | h
      · exact h
      · exact Option.noConfusion h
    · intro t ht
      refine ⟨selectGo_max _ _ _ _ _ (fun x hx => Option.noConfusion hx) hr t ht, ?_⟩
      intro hsc
      exact selectGo_earliest _ _ _ _ _ (fun x hx => Option.noConfusion hx) hsorted
        (fun x hx => Option.noConfusion hx) hr t ht hsc

/-- Witness for C6_selector: the spec's own tie example — two routine
candidates starting 09:00 and 09:15 score equally (120) and the selector
keeps 09:00. -/
theorem C6_selector_witness :
    (selectBest (fun s => score_slot_fast s 0 false)
        [⟨32400, 34200⟩, ⟨33300, 35100⟩]).isSome = true ∧
    (⟨32400, 34200⟩ : Interval) ∈ ([⟨32400, 34200⟩, ⟨33300, 35100⟩] : List Interval) ∧
    score_slot_fast ⟨33300, 35100⟩ 0 false ≤ score_slot_fast ⟨32400, 34200⟩ 0 false ∧
    (⟨32400, 34200⟩ : Interval).start ≤ (⟨33300, 35100⟩ : Interval).start := by
  obtain ⟨h1, h2⟩ := C6_selector [⟨32400, 34200⟩, ⟨33300, 35100⟩] 0 false
    (by decide) (by decide)
  obtain ⟨hmem, hall⟩ := h2 ⟨32400, 34200⟩ (by decide)
  obtain ⟨hle, htie⟩ := hall ⟨33300, 35100⟩ (by decide)
  exact ⟨h1, hmem, hle, htie (by decide)⟩

/-! ## Merge invariants (claim C4) -/

/-- On sorted, well-formed input the merge scan produces a timeline whose
consecutive entries satisfy `end < next.start` and whose starts are
strictly increasing. -/
theorem mergeGo_inv : ∀ (l : List Interval) (cur : Interval),
    List.Pairwise startLE l →
    (∀ x ∈ l, x.start < x.«end») →
    cur.start ≤ cur.«end» →
    (∀ x ∈ l, cur.start ≤ x.start) →
    List.Chain' (fun a b => a.«end» < b.start) (mergeGo cur l) ∧
    List.Chain' (fun a b => a.start < b.start) (mergeGo cur l) := by
  intro l
  induction l with
  | nil =>
    intro cur _ _ _ _
    constructor <;> simp [mergeGo]
  | cons x xs ih =>
    intro cur hp hwf hcur hle
    simp only [mergeGo]
    by_cases hc : x.start ≤ cur.«end»
    · rw [if_pos hc]
      apply ih
      · exact (List.pairwise_cons.mp hp).2
      · intro z hz
        exact hwf z (List.mem_cons_of_mem _ hz)
      · exact le_trans hcur (le_max_left _ _)
      · intro z hz
        exact le_trans (hle x (by simp)) ((List.pairwise_cons.mp hp).1 z hz)
    · rw [if_neg hc]
      push_neg at hc
      have hx : x.start ≤ x.«end» := le_of_lt (hwf x (by simp))
      have IH := ih x (List.pairwise_cons.mp hp).2
        (fun z hz => hwf z (List.mem_cons_of_mem _ hz)) hx
        (fun z hz => (List.pairwise_cons.mp hp).1 z hz)
      obtain ⟨e, tl, heq⟩ := mergeGo_head xs x
      rw [heq] at IH ⊢
      constructor
      · exact List.chain'_cons.mpr ⟨hc, IH.1⟩
      · refine List.chain'_cons.mpr ⟨?_, IH.2⟩
        show cur.start < x.start
        omega

/-- Claim C4: for well-formed input intervals (`start < end` each), the
output of `merge_busy_slots` is sorted strictly ascending by `start`, its
consecutive entries satisfy `entry[i].end < entry[i+1].start`, and empty
input yields the empty timeline. -/
theorem C4_merge_invariants (l : List Interval)
    (hwf : ∀ i ∈ l, i.start < i.«end») :
    List.Chain' (fun a b => a.«end» < b.start) (merge_busy_slots l) ∧
    List.Chain' (fun a b => a.start < b.start) (merge_busy_slots l) ∧
    merge_busy_slots [] = [] := by
  have key : List.Chain' (fun a b => a.«end» < b.start) (merge_busy_slots l) ∧
      List.Chain' (fun a b => a.start < b.start) (merge_busy_slots l) := by
    unfold merge_busy_slots
    split
    · constructor <;> simp
    · next x xs heq =>
      have hs : List.Pairwise startLE (x :: xs) := by
        have h2 := List.sorted_insertionSort startLE l
        rw [heq] at h2
        exact h2
      have hmem : ∀ z, z ∈ x :: xs → z ∈ l := by
        intro z hz
        have hperm := List.perm_insertionSort startLE l
        rw [heq] at hperm
        exact hperm.subset hz
      exact mergeGo_inv xs x (List.pairwise_cons.mp hs).2
        (fun z hz => hwf z (hmem z (List.mem_cons_of_mem _ hz)))
        (le_of_lt (hwf x (hmem x (by simp))))
        (fun z hz => (List.pairwise_cons.mp hs).1 z hz)
  exact ⟨key.1, key.2, rfl⟩

/-- Witness for C4_merge_invariants: three well-formed intervals, two of
them overlapping, merge into a timeline satisfying both chain invariants. -/
theorem C4_merge_invariants_witness :
    List.Chain' (fun a b => a.«end» < b.start)
      (merge_busy_slots [⟨5, 20⟩, ⟨0, 10⟩, ⟨30, 40⟩]) ∧
    List.Chain' (fun a b => a.start < b.start)
      (merge_busy_slots [⟨5, 20⟩, ⟨0, 10⟩, ⟨30, 40⟩]) ∧
    merge_busy_slots [] = [] :=
  C4_merge_invariants [⟨5, 20⟩, ⟨0, 10⟩, ⟨30, 40⟩] (by decide)


/-! ## Order independence of merging (claim C3) -/

/-- One-step equation of the merge scan, for controlled rewriting. -/
theorem mergeGo_step (c z : Interval) (r : List Interval) :
    mergeGo c (z :: r) =
      if z.start ≤ c.«end» then mergeGo ⟨c.start, max c.«end» z.«end»⟩ r
      else c :: mergeGo z r := rfl

/-- Bubbling: a well-formed interval `b` moves to the front of the scan
past a prefix `p` of well-formed intervals that all share its start,
without changing the merge result. -/
theorem mergeGo_bubble : ∀ (p : List Interval) (b : Interval) (q : List Interval)
    (cur : Interval),
    (∀ x ∈ p, x.start = b.start ∧ x.start < x.«end») →
    b.start < b.«end» →
    mergeGo cur (p ++ b :: q) = mergeGo cur (b :: (p ++ q)) := by
  intro p
  induction p with
  | nil => intro b q cur _ _; rfl
  | cons x p2 ih =>
    intro b q cur hp hb
    obtain ⟨hxs, hxwf⟩ := hp x (by simp)
    have hp2 : ∀ z ∈ p2, z.start = b.start ∧ z.start < z.«end» :=
      fun z hz => hp z (List.mem_cons_of_mem _ hz)
    simp only [List.cons_append]
    by_cases hc : x.start ≤ cur.«end»
    · have hbc : b.start ≤ cur.«end» := by omega
      rw [mergeGo_step cur x (p2 ++ b :: q), if_pos hc,
        ih b q ⟨cur.start, max cur.«end» x.«end»⟩ hp2 hb,
        mergeGo_step ⟨cur.start, max cur.«end» x.«end»⟩ b (p2 ++ q),
        if_pos (show b.start ≤ max cur.«end» x.«end» from le_trans hbc (le_max_left _ _)),
        mergeGo_step cur b (x :: (p2 ++ q)), if_pos hbc,
        mergeGo_step ⟨cur.start, max cur.«end» b.«end»⟩ x (p2 ++ q),
        if_pos (show x.start ≤ max cur.«end» b.«end» from le_trans hc (le_max_left _ _))]
      have harg : (⟨cur.start, max (max cur.«end» x.«end») b.«end»⟩ : Interval) =
          ⟨cur.start, max (max cur.«end» b.«end») x.«end»⟩ := by
        rw [max_assoc, max_comm x.«end» b.«end», ← max_assoc]
      rw [harg]
    · push_neg at hc
      rw [mergeGo_step cur x (p2 ++ b :: q), if_neg (by omega),
        ih b q x hp2 hb,
        mergeGo_step x b (p2 ++ q), if_pos (show b.start ≤ x.«end» by omega),
        mergeGo_step cur b (x :: (p2 ++ q)), if_neg (show ¬ b.start ≤ cur.«end» by omega),
        mergeGo_step b x (p2 ++ q), if_pos (show x.start ≤ b.«end» by omega)]
      have harg : (⟨x.start, max x.«end» b.«end»⟩ : Interval) =
          ⟨b.start, max b.«end» x.«end»⟩ := by
        rw [hxs, max_comm]
      rw [harg]

/-- Two well-formed intervals with equal starts can be swapped at the head
of the scan. -/
theorem mergeGo_head_swap (x y : Interval) (r : List Interval)
    (hs : x.start = y.start) (hwx : x.start < x.«end») (hwy : y.start < y.«end») :
    mergeGo x (y :: r) = mergeGo y (x :: r) := by
  rw [mergeGo_step x y r, if_pos (show y.start ≤ x.«end» by omega),
    mergeGo_step y x r, if_pos (show x.start ≤ y.«end» by omega)]
  have harg : (⟨x.start, max x.«end» y.«end»⟩ : Interval) =
      ⟨y.start, max y.«end» x.«end»⟩ := by
    rw [hs, max_comm]
  rw [harg]

/-- The merge scan gives the same result on any two sorted-by-start
permutations of the same well-formed interval collection. -/
theorem mergeGo_sorted_perm : ∀ (n : Nat) (l1 l2 : List Interval) (cur : Interval),
    l1.length ≤ n → l1.Perm l2 →
    List.Pairwise startLE l1 → List.Pairwise startLE l2 →
    (∀ x ∈ l1, x.start < x.«end») →
    mergeGo cur l1 = mergeGo cur l2 := by
  intro n
  induction n with
  | zero =>
    intro l1 l2 cur hlen hperm _ _ _
    have h1 : l1 = [] := List.length_eq_zero.mp (Nat.le_zero.mp hlen)
    subst h1
    rw [hperm.symm.eq_nil]
  | succ n ih =>
    intro l1 l2 cur hlen hperm hp1 hp2 hwf
    cases l1 with
    | nil => rw [hperm.symm.eq_nil]
    | cons a t1 =>
      cases l2 with
      | nil => exact absurd hperm.eq_nil (by simp)
      | cons b t2 =>
        by_cases hab : a = b
        · subst hab
          have hperm2 : t1.Perm t2 := hperm.cons_inv
          have hlen2 : t1.length ≤ n := by
            simp only [List.length_cons] at hlen
            omega
          rw [mergeGo_step cur a t1, mergeGo_step cur a t2]
          by_cases hc : a.start ≤ cur.«end»
          · rw [if_pos hc, if_pos hc]
            exact ih _ _ _ hlen2 hperm2 (List.pairwise_cons.mp hp1).2
              (List.pairwise_cons.mp hp2).2
              (fun z hz => hwf z (List.mem_cons_of_mem _ hz))
          · rw [if_neg hc, if_neg hc]
            congr 1
            exact ih _ _ _ hlen2 hperm2 (List.pairwise_cons.mp hp1).2
              (List.pairwise_cons.mp hp2).2
              (fun z hz => hwf z (List.mem_cons_of_mem _ hz))
        · have hbl1 : b ∈ a :: t1 := hperm.mem_iff.mpr (by simp)
          have hbt1 : b ∈ t1 := by
            rcases List.mem_cons.mp hbl1 with h | h
            · exact absurd h.symm hab
            · exact h
          obtain ⟨p, q, hpq⟩ := List.append_of_mem hbt1
          subst hpq
          have hmin2 : ∀ z ∈ b :: t2, b.start ≤ z.start := by
            intro z hz
            rcases List.mem_cons.mp hz with rfl | hz2
            · exact le_refl _
            · exact (List.pairwise_cons.mp hp2).1 z hz2
          have hmin1 : ∀ z ∈ a :: (p ++ b :: q), b.start ≤ z.start :=
            fun z hz => hmin2 z (hperm.mem_iff.mp hz)
          have hab_start : a.start = b.start := by
            have h1 : a.start ≤ b.start := (List.pairwise_cons.mp hp1).1 b hbt1
            have h2 : b.start ≤ a.start := hmin1 a (by simp)
            omega
          have hpstart : ∀ z ∈ p, z.start = b.start := by
            intro z hz
            have hpt : List.Pairwise startLE (p ++ b :: q) :=
              (List.pairwise_cons.mp hp1).2
            have h1 : z.start ≤ b.start :=
              (List.pairwise_append.mp hpt).2.2 z hz b (by simp)
            have h2 : b.start ≤ z.start := hmin1 z (by simp [hz])
            omega
          have hwfb : b.start < b.«end» := hwf b (List.mem_cons_of_mem _ hbt1)
          have hgroup : ∀ z ∈ a :: p, z.start = b.start ∧ z.start < z.«end» := by
            intro z hz
            rcases List.mem_cons.mp hz with rfl | hz2
            · exact ⟨hab_start, hwf z (by simp)⟩
            · exact ⟨hpstart z hz2, hwf z (by simp [hz2])⟩
          have hbub := mergeGo_bubble (a :: p) b q cur hgroup hwfb
          simp only [List.cons_append] at hbub
          rw [hbub]
          have hperm3 : (a :: (p ++ q)).Perm t2 := by
            have hmid : ((a :: p) ++ b :: q).Perm (b :: ((a :: p) ++ q)) :=
              List.perm_middle
            simp only [List.cons_append] at hmid
            exact (hmid.symm.trans hperm).cons_inv
          have hpair3 : List.Pairwise startLE (a :: (p ++ q)) := by
            have hsub : (a :: (p ++ q)).Sublist (a :: (p ++ b :: q)) :=
              List.Sublist.cons₂ a (List.Sublist.append_left (List.sublist_cons_self b q) p)
            exact List.Pairwise.sublist hsub hp1
          have hlen3 : (a :: (p ++ q)).length ≤ n := by
            simp only [List.length_cons, List.length_append] at hlen ⊢
            omega
          have hwf3 : ∀ z ∈ a :: (p ++ q), z.start < z.«end» := by
            intro z hz
            apply hwf
            simp only [List.mem_cons, List.mem_append] at hz ⊢
            tauto
          rw [mergeGo_step cur b (a :: (p ++ q)), mergeGo_step cur b t2]
          by_cases hcb : b.start ≤ cur.«end»
          · rw [if_pos hcb, if_pos hcb]
            exact ih _ _ _ hlen3 hperm3 hpair3 (List.pairwise_cons.mp hp2).2 hwf3
          · rw [if_neg hcb, if_neg hcb]
            congr 1
            exact ih _ _ _ hlen3 hperm3 hpair3 (List.pairwise_cons.mp hp2).2 hwf3

/-- Claim C3: merging is order-independent — for every collection of
well-formed intervals (`start < end`, as the data model requires of
`Interval`) and every permutation of it, `merge_busy_slots` yields the same
merged timeline. -/
theorem C3_merge_order_independent (l1 l2 : List Interval)
    (hperm : l1.Perm l2) (hwf : ∀ i ∈ l1, i.start < i.«end») :
    merge_busy_slots l1 = merge_busy_slots l2 := by
  have hs1 : List.Pairwise startLE (List.insertionSort startLE l1) :=
    List.sorted_insertionSort startLE l1
  have hs2 : List.Pairwise startLE (List.insertionSort startLE l2) :=
    List.sorted_insertionSort startLE l2
  have hperm2 : (List.insertionSort startLE l1).Perm (List.insertionSort startLE l2) :=
    (List.perm_insertionSort startLE l1).trans
      (hperm.trans (List.perm_insertionSort startLE l2).symm)
  have hwf1 : ∀ i ∈ List.insertionSort startLE l1, i.start < i.«end» :=
    fun i hi => hwf i ((List.perm_insertionSort startLE l1).subset hi)
  rcases h1 : List.insertionSort startLE l1 with _ | ⟨x, xs⟩ <;>
    rcases h2 : List.insertionSort startLE l2 with _ | ⟨y, ys⟩ <;>
      rw [h1] at hperm2 hs1 hwf1 <;> rw [h2] at hperm2 hs2
  · have e1 : merge_busy_slots l1 = [] := by unfold merge_busy_slots; rw [h1]
    have e2 : merge_busy_slots l2 = [] := by unfold merge_busy_slots; rw [h2]
    rw [e1, e2]
  · exact absurd hperm2.symm.eq_nil (by simp)
  · exact absurd hperm2.eq_nil (by simp)
  · have e1 : merge_busy_slots l1 = mergeGo x xs := by
      unfold merge_busy_slots
      rw [h1]
    have e2 : merge_busy_slots l2 = mergeGo y ys := by
      unfold merge_busy_slots
      rw [h2]
    rw [e1, e2]
    by_cases hxy : x = y
    · subst hxy
      exact mergeGo_sorted_perm xs.length xs ys x (le_refl _) hperm2.cons_inv
        (List.pairwise_cons.mp hs1).2 (List.pairwise_cons.mp hs2).2
        (fun z hz => hwf1 z (List.mem_cons_of_mem _ hz))
    · have hyx : y ∈ x :: xs := hperm2.mem_iff.mpr (by simp)
      have hyxs : y ∈ xs := by
        rcases List.mem_cons.mp hyx with h | h
        · exact absurd h.symm hxy
        · exact h
      obtain ⟨p, q, hpq⟩ := List.append_of_mem hyxs
      subst hpq
      have hmin2 : ∀ z ∈ y :: ys, y.start ≤ z.start := by
        intro z hz
        rcases List.mem_cons.mp hz with rfl | hz2
        · exact le_refl _
        · exact (List.pairwise_cons.mp hs2).1 z hz2
      have hmin1 : ∀ z ∈ x :: (p ++ y :: q), y.start ≤ z.start :=
        fun z hz => hmin2 z (hperm2.mem_iff.mp hz)
      have hxy_start : x.start = y.start := by
        have ha : x.start ≤ y.start := (List.pairwise_cons.mp hs1).1 y hyxs
        have hb : y.start ≤ x.start := hmin1 x (by simp)
        omega
      have hpstart : ∀ z ∈ p, z.start = y.start ∧ z.start < z.«end» := by
        intro z hz
        have hpt : List.Pairwise startLE (p ++ y :: q) :=
          (List.pairwise_cons.mp hs1).2
        have ha : z.start ≤ y.start :=
          (List.pairwise_append.mp hpt).2.2 z hz y (by simp)
        have hb : y.start ≤ z.start := hmin1 z (by simp [hz])
        exact ⟨by omega, hwf1 z (by simp [hz])⟩
      have hwfy : y.start < y.«end» := hwf1 y (List.mem_cons_of_mem _ hyxs)
      have hwfx : x.start < x.«end» := hwf1 x (by simp)
      rw [mergeGo_bubble p y q x hpstart hwfy,
        mergeGo_head_swap x y (p ++ q) hxy_start hwfx hwfy]
      have hperm3 : (x :: (p ++ q)).Perm ys := by
        have hmid : ((x :: p) ++ y :: q).Perm (y :: ((x :: p) ++ q)) :=
          List.perm_middle
        simp only [List.cons_append] at hmid
        exact (hmid.symm.trans hperm2).cons_inv
      have hpair3 : List.Pairwise startLE (x :: (p ++ q)) := by
        have hsub : (x :: (p ++ q)).Sublist (x :: (p ++ y :: q)) :=
          List.Sublist.cons₂ x (List.Sublist.append_left (List.sublist_cons_self y q) p)
        exact List.Pairwise.sublist hsub hs1
      have hwf3 : ∀ z ∈ x :: (p ++ q), z.start < z.«end» := by
        intro z hz
        apply hwf1
        simp only [List.mem_cons, List.mem_append] at hz ⊢
        tauto
      exact mergeGo_sorted_perm (x :: (p ++ q)).length (x :: (p ++ q)) ys y
        (le_refl _) hperm3 hpair3 (List.pairwise_cons.mp hs2).2 hwf3

/-- Witness for C3_merge_order_independent: two overlapping well-formed
intervals in both orders merge identically. -/
theorem C3_merge_order_independent_witness :
    merge_busy_slots [⟨0, 10⟩, ⟨5, 20⟩] = merge_busy_slots [⟨5, 20⟩, ⟨0, 10⟩] :=
  C3_merge_order_independent [⟨0, 10⟩, ⟨5, 20⟩] [⟨5, 20⟩, ⟨0, 10⟩]
    (by decide) (by decide)

/-! ## Fuel adequacy: the chosen fuel never truncates a generation loop -/

/-- The generation loop is insensitive to the fuel bound as long as the
fuel exceeds `(bound - dur - slot_start).toNat`, which `genFuel` provides;
the embedded loops therefore agree with the unbounded Python `while`
loops. -/
theorem genSlotsF_fuel_irrelevant : ∀ (f1 f2 : Nat) (c bound dur : Int),
    (bound - dur - c).toNat < f1 → (bound - dur - c).toNat < f2 →
    genSlotsF f1 c bound dur = genSlotsF f2 c bound dur := by
  intro f1
  induction f1 with
  | zero => intro f2 c bound dur h1 _; omega
  | succ g1 ih =>
    intro f2 c bound dur h1 h2
    cases f2 with
    | zero => omega
    | succ g2 =>
      simp only [genSlotsF]
      by_cases hc : c + dur ≤ bound
      · rw [if_pos hc, if_pos hc]
        by_cases hc2 : c + 900 + dur ≤ bound
        · have hrec := ih g2 (c + 900) bound dur (by omega) (by omega)
          rw [hrec]
        · have hnil : ∀ g : Nat, genSlotsF g (c + 900) bound dur = [] := by
            intro g
            cases g with
            | zero => rfl
            | succ g3 =>
              simp only [genSlotsF]
              rw [if_neg hc2]
          rw [hnil g1, hnil g2]
      · rw [if_neg hc, if_neg hc]

/-- Likewise for the final cursor of the loop. -/
theorem genEndF_fuel_irrelevant : ∀ (f1 f2 : Nat) (c bound dur : Int),
    (bound - dur - c).toNat < f1 → (bound - dur - c).toNat < f2 →
    genEndF f1 c bound dur = genEndF f2 c bound dur := by
  intro f1
  induction f1 with
  | zero => intro f2 c bound dur h1 _; omega
  | succ g1 ih =>
    intro f2 c bound dur h1 h2
    cases f2 with
    | zero => omega
    | succ g2 =>
      simp only [genEndF]
      by_cases hc : c + dur ≤ bound
      · rw [if_pos hc, if_pos hc]
        by_cases hc2 : c + 900 + dur ≤ bound
        · have hrec := ih g2 (c + 900) bound dur (by omega) (by omega)
          rw [hrec]
        · have hstop : ∀ g : Nat, genEndF g (c + 900) bound dur = c + 900 := by
            intro g
            cases g with
            | zero => rfl
            | succ g3 =>
              simp only [genEndF]
              rw [if_neg hc2]
          rw [hstop g1, hstop g2]
      · rw [if_neg hc, if_neg hc]

/-- Adding fuel beyond `genFuel` changes nothing. -/
theorem genSlotsF_genFuel_extend (extra : Nat) (c bound dur : Int) :
    genSlotsF (genFuel c bound dur + extra) c bound dur =
    genSlotsF (genFuel c bound dur) c bound dur := by
  apply genSlotsF_fuel_irrelevant <;> simp only [genFuel] <;> omega

end Scheduler
